import Mathlib

/-
Verification of the crossword placement-and-search engine
(src/generator.js, src/utils.js and the in-page generator revisions).

The grid is modelled as a total function from coordinates to optional
letters (`none` is the empty cell `''` of the source).  All embedded
functions are computable translations of the JavaScript source; the
`sinF` parameter stands for the engine's fixed `Math.sin`, and `Env`
carries the ambient sources of nondeterminism (`Math.random` draws and
the wall clock) so that determinism claims can be stated as
environment-independence.
-/

namespace Crossword

/-- Direction of a placement: `'across'` or `'down'` in the source. -/
inductive Dir where
  | across : Dir
  | down : Dir
deriving DecidableEq, Repr

/-- The perpendicular direction (across becomes down and conversely). -/
def Dir.opposite : Dir → Dir
  | .across => .down
  | .down => .across

/-- A word is the list of its characters (JS string, indexed by `word[i]`). -/
abbrev Word := List Char

/-- `word[i]` of the source; the default is never consulted in range. -/
def cellChar (w : Word) (i : Nat) : Char := w.getD i ' '

/-- The grid: a cell is `none` (the `''` of the source) or a letter. -/
abbrev Grid := Nat → Nat → Option Char

/-- The all-empty grid created at the start of an attempt. -/
def emptyGrid : Grid := fun _ _ => none

/-- `grid[r][c] = ch` — functional update of one cell. -/
def updateGrid (g : Grid) (r c : Nat) (ch : Char) : Grid :=
  fun r' c' => if r' = r ∧ c' = c then some ch else g r' c'

/-- Row of the `i`-th covered cell of a word starting at `r` going `d`. -/
def cellRow (r : Nat) (d : Dir) (i : Nat) : Nat :=
  match d with
  | .across => r
  | .down => r + i

/-- Column of the `i`-th covered cell of a word starting at `c` going `d`. -/
def cellCol (c : Nat) (d : Dir) (i : Nat) : Nat :=
  match d with
  | .across => c + i
  | .down => c

/-- The letter-writing loop of `placeWordForResult`:
`result.grid[startRow][startCol + i] = word[i]` (across), resp.
`result.grid[startRow + i][startCol] = word[i]` (down). -/
def writeWord (g : Grid) : Word → Nat → Nat → Dir → Grid
  | [], _, _, _ => g
  | ch :: rest, r, c, .across => writeWord (updateGrid g r c ch) rest r (c + 1) .across
  | ch :: rest, r, c, .down => writeWord (updateGrid g r c ch) rest (r + 1) c .down

/-- One covered-cell check of `canPlaceWord`, across case: an occupied cell
must hold the word's letter; an empty cell must have empty (or missing)
cells directly above and below. -/
def okCellAcross (gs : Nat) (g : Grid) (w : Word) (row col0 i : Nat) : Bool :=
  match g row (col0 + i) with
  | some ch => decide (ch = cellChar w i)
  | none =>
      (decide (row = 0) || (g (row - 1) (col0 + i)).isNone) &&
      (decide (¬ row < gs - 1) || (g (row + 1) (col0 + i)).isNone)

/-- One covered-cell check of `canPlaceWord`, down case. -/
def okCellDown (gs : Nat) (g : Grid) (w : Word) (row0 col i : Nat) : Bool :=
  match g (row0 + i) col with
  | some ch => decide (ch = cellChar w i)
  | none =>
      (decide (col = 0) || (g (row0 + i) (col - 1)).isNone) &&
      (decide (¬ col < gs - 1) || (g (row0 + i) (col + 1)).isNone)

/-- `canPlaceWord(word, startRow, startCol, direction)` of src/generator.js:
bounds check along the direction, per-cell conflict and parallel-adjacency
checks, and the empty-or-out-of-bounds check for the cell just before the
start and just after the end. -/
def canPlaceWord (gs : Nat) (g : Grid) (w : Word) (startRow startCol : Nat) : Dir → Bool
  | .across =>
      decide (startCol + w.length ≤ gs) &&
      (List.range w.length).all (okCellAcross gs g w startRow startCol) &&
      (decide (startCol = 0) || (g startRow (startCol - 1)).isNone) &&
      (decide (¬ startCol + w.length < gs) || (g startRow (startCol + w.length)).isNone)
  | .down =>
      decide (startRow + w.length ≤ gs) &&
      (List.range w.length).all (okCellDown gs g w startRow startCol) &&
      (decide (startRow = 0) || (g (startRow - 1) startCol).isNone) &&
      (decide (¬ startRow + w.length < gs) || (g (startRow + w.length) startCol).isNone)

/-- `findIntersections(word1, word2)`: every index pair `(i, j)` with
`word1[i] === word2[j]`, outer loop over `word1`, inner over `word2`. -/
def findIntersections (w1 w2 : Word) : List (Nat × Nat) :=
  (List.range w1.length).flatMap fun i =>
    ((List.range w2.length).filter fun j => decide (cellChar w1 i = cellChar w2 j)).map
      fun j => (i, j)

/-- A placement record: word, clue, start cell, direction, clue number. -/
structure Placement where
  word : Word
  clue : String
  startRow : Nat
  startCol : Nat
  direction : Dir
  number : Nat
deriving DecidableEq, Repr

/-- The per-attempt result object: placement list, set of placed words
(insertion-ordered, duplicate-free, as a JS `Set`), grid, start-cell
number map and next clue number. -/
structure Result where
  placements : List Placement
  placedWords : List Word
  grid : Grid
  wordNumbers : Nat × Nat → Option Nat
  currentNumber : Nat

/-- The fresh result created at the start of `generateSingleCrosswordWithSeed`. -/
def emptyResult : Result :=
  ⟨[], [], emptyGrid, fun _ => none, 1⟩

/-- `placeWordForResult`: append the placement record, add the word to the
placed set, record the start-cell number, bump the counter and write the
letters into the grid. -/
def placeWordForResult (res : Result) (w : Word) (clue : String)
    (startRow startCol : Nat) (direction : Dir) : Result :=
  { placements := res.placements ++ [⟨w, clue, startRow, startCol, direction, res.currentNumber⟩]
    placedWords := if w ∈ res.placedWords then res.placedWords else res.placedWords ++ [w]
    grid := writeWord res.grid w startRow startCol direction
    wordNumbers := fun p => if p = (startRow, startCol) then some res.currentNumber else res.wordNumbers p
    currentNumber := res.currentNumber + 1 }

/-- `getIntersectionPlacements(grid, newWord, existingPlacement)`: for each
shared-letter pair, the unique perpendicular position through the shared
cell, kept when nonnegative, within bounds along the new direction and
legal per `canPlaceWord`. -/
def getIntersectionPlacements (gs : Nat) (g : Grid) (newWord : Word) (ep : Placement) :
    List (Nat × Nat × Dir) :=
  (findIntersections newWord ep.word).filterMap fun p =>
    match ep.direction with
    | .across =>
        if p.1 ≤ ep.startRow then
          if decide (ep.startRow - p.1 + newWord.length ≤ gs) &&
              canPlaceWord gs g newWord (ep.startRow - p.1) (ep.startCol + p.2) .down then
            some (ep.startRow - p.1, ep.startCol + p.2, .down)
          else none
        else none
    | .down =>
        if p.1 ≤ ep.startCol then
          if decide (ep.startCol - p.1 + newWord.length ≤ gs) &&
              canPlaceWord gs g newWord (ep.startRow + p.2) (ep.startCol - p.1) .across then
            some (ep.startRow + p.2, ep.startCol - p.1, .across)
          else none
        else none

/-- `scoreCrosswordResult` of src/generator.js: 100 points per placement. -/
def scoreCrosswordResult (result : Result) : Nat :=
  result.placements.length * 100

/-- A word/clue entry of the input list. -/
structure WordEntry where
  word : Word
  clue : String
deriving DecidableEq, Repr

/-- Generation mode: `'maxOverlap'` or `'random'`. -/
inductive Mode where
  | maxOverlap : Mode
  | random : Mode
deriving DecidableEq, Repr

/-- A seed object: deterministic seeds carry a word order and a starting
position, random seeds carry two numeric draws. -/
structure Seed where
  wordOrder : Option (List WordEntry)
  startingPosition : Option (Nat × Nat)
  randomSeed : Option ℚ
  wordOrderSeed : Option ℚ

/-- The `k`-th value of the seeded PRNG of `deterministicShuffle`:
`x = sin(seed++) * 10000; x - floor(x)`, with `sinF` standing for the
engine's `Math.sin`. -/
def mkRand (sinF : ℚ → ℚ) (seed : ℚ) (k : Nat) : ℚ :=
  sinF (seed + k) * 10000 - ⌊sinF (seed + k) * 10000⌋

/-- Swap two list cells through a temporary, as the source's three
assignments do; out-of-range indices (never reached) leave the list. -/
def swapList {α : Type} (l : List α) (i j : Nat) : List α :=
  match l.get? i, l.get? j with
  | some a, some b => (l.set i b).set j a
  | _, _ => l

/-- The Fisher-Yates loop of `deterministicShuffle`: while `currentIndex`
is nonzero, draw `randomIndex = floor(random() * currentIndex)`, decrement
`currentIndex` and swap the two cells; `k` counts the draws made. -/
def shuffleAux {α : Type} (rand : Nat → ℚ) : Nat → Nat → List α → List α
  | 0, _, l => l
  | ci + 1, k, l =>
      shuffleAux rand ci (k + 1) (swapList l ci (⌊rand k * (ci + 1 : ℚ)⌋).toNat)

/-- `deterministicShuffle(array, seed)` of src/utils.js. -/
def deterministicShuffle {α : Type} (sinF : ℚ → ℚ) (l : List α) (seed : ℚ) : List α :=
  shuffleAux (mkRand sinF seed) l.length 0 l

/-- Stable insertion used to model the stable `Array.prototype.sort`:
`x` goes before the first element not strictly before it. -/
def insertStable {α : Type} (lt : α → α → Bool) (x : α) : List α → List α
  | [] => [x]
  | y :: ys => if lt y x then y :: insertStable lt x ys else x :: y :: ys

/-- Stable sort by a strict comparator, modelling the (stable) JS sort. -/
def sortStable {α : Type} (lt : α → α → Bool) : List α → List α
  | [] => []
  | x :: xs => insertStable lt x (sortStable lt xs)

/-- Strict lexicographic order on words, modelling `localeCompare` on the
uppercase A-Z words the generator receives. -/
def lexLt : Word → Word → Bool
  | [], [] => false
  | [], _ :: _ => true
  | _ :: _, [] => false
  | a :: as, b :: bs => if a = b then lexLt as bs else decide (a < b)

/-- `generateWordOrderVariations`: longest-first, shortest-first,
alphabetical and reverse-alphabetical orderings of the input words. -/
def generateWordOrderVariations (words : List WordEntry) : List (List WordEntry) :=
  [ sortStable (fun a b => decide (b.word.length < a.word.length)) words,
    sortStable (fun a b => decide (a.word.length < b.word.length)) words,
    sortStable (fun a b => lexLt a.word b.word) words,
    sortStable (fun a b => lexLt b.word a.word) words ]

/-- `generateStartingPositionVariations`: grid center, then top-left. -/
def generateStartingPositionVariations (gs : Nat) : List (Nat × Nat) :=
  [(gs / 2, gs / 2), (0, 0)]

/-- The ambient environment of a search run: the engine's `Math.sin`, the
stream of `Math.random()` draws, and the elapsed wall-clock milliseconds
observed at each timeout check. -/
structure Env where
  sinF : ℚ → ℚ
  randoms : Nat → ℚ
  elapsed : Nat → Nat

/-- `generateSeedCombinations`: 1000 random draw pairs in random mode, the
word-order × starting-position cross product otherwise. -/
def generateSeedCombinations (env : Env) (gs : Nat) (words : List WordEntry) :
    Mode → List Seed
  | .random =>
      (List.range 1000).map fun i =>
        ⟨none, none, some (env.randoms (2 * i)), some (env.randoms (2 * i + 1))⟩
  | .maxOverlap =>
      (generateWordOrderVariations words).flatMap fun wo =>
        (generateStartingPositionVariations gs).map fun sp =>
          ⟨some wo, some sp, none, none⟩

/-- The inner candidate loop of the placement search: in maxOverlap mode a
candidate replaces the current best only when its word-pair intersection
count strictly exceeds the running maximum (initially -1). -/
def bestInner (cnt : Int) : List (Nat × Nat × Dir) →
    Option (Nat × Nat × Dir) × Int → Option (Nat × Nat × Dir) × Int
  | [], st => st
  | cand :: rest, (best, maxI) =>
      if maxI < cnt then bestInner cnt rest (some cand, cnt)
      else bestInner cnt rest (best, maxI)

/-- The loop over already-placed words collecting the maxOverlap best. -/
def bestLoopMax (gs : Nat) (g : Grid) (w : Word) :
    List Placement → Option (Nat × Nat × Dir) × Int → Option (Nat × Nat × Dir) × Int
  | [], st => st
  | ep :: rest, st =>
      bestLoopMax gs g w rest
        (bestInner ((findIntersections w ep.word).length : Int)
          (getIntersectionPlacements gs g w ep) st)

/-- The candidate selection of the word-placement loop: maxOverlap keeps
the best-scoring candidate; random takes the first legal candidate of the
first placed word that offers one and stops scanning. -/
def findBestPlacement (gs : Nat) (mode : Mode) (g : Grid) (w : Word)
    (eps : List Placement) : Option (Nat × Nat × Dir) :=
  match mode with
  | .maxOverlap => (bestLoopMax gs g w eps (none, -1)).1
  | .random => eps.findSome? fun ep => (getIntersectionPlacements gs g w ep).head?

/-- One pass of the filtering loop of `generateSingleCrosswordWithSeed`:
each remaining word is placed at its best candidate (and dropped) or kept;
the flag records whether this pass placed anything. -/
def placementPass (gs : Nat) (mode : Mode) : Result → List WordEntry →
    Result × List WordEntry × Bool
  | res, [] => (res, [], false)
  | res, w :: rest =>
      if w.word ∈ res.placedWords then placementPass gs mode res rest
      else
        match findBestPlacement gs mode res.grid w.word res.placements with
        | some (r, c, d) =>
            let out := placementPass gs mode (placeWordForResult res w.word w.clue r c d) rest
            (out.1, out.2.1, true)
        | none =>
            let out := placementPass gs mode res rest
            (out.1, w :: out.2.1, out.2.2)

/-- The `while (placedSomething && wordsToPlace.length > 0)` loop; the fuel
is the initial word count, enough since every continuing pass shrinks the
list. -/
def placementLoop (gs : Nat) (mode : Mode) : Nat → Result → List WordEntry → Result
  | 0, res, _ => res
  | _ + 1, res, [] => res
  | fuel + 1, res, w :: ws =>
      let out := placementPass gs mode res (w :: ws)
      if out.2.2 then placementLoop gs mode fuel out.1 out.2.1 else out.1

/-- `generateSingleCrosswordWithSeed(mode, seed)`: order the words by the
seed (shuffling in random mode), place the first word at the seed's
starting position (grid center by default) going across, then run the
placement loop. -/
def generateSingleCrosswordWithSeed (sinF : ℚ → ℚ) (gs : Nat)
    (ctxWords : List WordEntry) (mode : Mode) (seed : Seed) : Result :=
  let wordsToPlace := match seed.wordOrder with
    | some wo => wo
    | none => ctxWords
  let wordsToPlace := match mode with
    | .random => deterministicShuffle sinF wordsToPlace (seed.wordOrderSeed.getD 0)
    | .maxOverlap => wordsToPlace
  match wordsToPlace with
  | [] => emptyResult
  | firstWord :: rest =>
      let startPos := seed.startingPosition.getD (gs / 2, gs / 2)
      let res1 := placeWordForResult emptyResult firstWord.word firstWord.clue
        startPos.1 startPos.2 .across
      placementLoop gs mode rest.length res1 rest

/-- The outcome fields of `generateCrosswordWithSystematicAttempts`. -/
structure DriverOut where
  bestResult : Option Result
  attempts : Nat
  foundPerfectSolution : Bool

/-- The seed loop of the search driver: stop when seeds or attempts run
out or the clock exceeds the timeout; adopt a perfect result immediately,
otherwise keep the strictly best score. -/
def driverLoop (env : Env) (gs : Nat) (ctxWords : List WordEntry) (mode : Mode)
    (totalAttempts timeoutMs : Nat) :
    List Seed → Option Result → Nat → Nat → Bool → DriverOut
  | [], best, _, attempts, perfect => ⟨best, attempts, perfect⟩
  | seed :: rest, best, bestScore, attempts, perfect =>
      if attempts < totalAttempts then
        if timeoutMs < env.elapsed attempts then ⟨best, attempts, perfect⟩
        else
          let result := generateSingleCrosswordWithSeed env.sinF gs ctxWords mode seed
          let score := scoreCrosswordResult result
          if result.placedWords.length = ctxWords.length then
            ⟨some result, attempts + 1, true⟩
          else if bestScore < score then
            driverLoop env gs ctxWords mode totalAttempts timeoutMs rest
              (some result) score (attempts + 1) perfect
          else
            driverLoop env gs ctxWords mode totalAttempts timeoutMs rest
              best bestScore (attempts + 1) perfect
      else ⟨best, attempts, perfect⟩

/-- `generateCrosswordWithSystematicAttempts`: one attempt unless
`enforceAllWords`, driven over the generated seed list under the
`maxAttempts` and `timeoutSeconds` budget. -/
def generateCrosswordWithSystematicAttempts (env : Env) (gs : Nat)
    (ctxWords : List WordEntry) (mode : Mode) (enforceAllWords : Bool)
    (maxAttempts timeoutSeconds : Nat) : DriverOut :=
  driverLoop env gs ctxWords mode (if enforceAllWords then maxAttempts else 1)
    (timeoutSeconds * 1000) (generateSeedCombinations env gs ctxWords mode) none 0 0 false

/-- The first seed the driver consumes: longest-first order with center
start in maxOverlap mode, the first two random draws in random mode. -/
def firstSeed (env : Env) (gs : Nat) (words : List WordEntry) : Mode → Seed
  | .maxOverlap =>
      ⟨some (sortStable (fun a b => decide (b.word.length < a.word.length)) words),
        some (gs / 2, gs / 2), none, none⟩
  | .random => ⟨none, none, some (env.randoms 0), some (env.randoms 1)⟩

/-- The bounding-box record of the part_001 revision's `getGridBounds`,
with -1 sentinels for the no-placements case. -/
structure Bounds where
  minRow : Int
  maxRow : Int
  minCol : Int
  maxCol : Int
deriving DecidableEq, Repr

/-- One `forEach` step of the part_001 revision's `getGridBounds`. -/
def boundsStep (b : Bounds) (p : Placement) : Bounds :=
  let b := if b.minRow = -1 then
      ⟨(p.startRow : Int), (p.startRow : Int), (p.startCol : Int), (p.startCol : Int)⟩
    else b
  ⟨min b.minRow (p.startRow : Int),
    max b.maxRow ((p.startRow : Int) + (if p.direction = .down then (p.word.length : Int) - 1 else 0)),
    min b.minCol (p.startCol : Int),
    max b.maxCol ((p.startCol : Int) + (if p.direction = .across then (p.word.length : Int) - 1 else 0))⟩

/-- `getGridBounds` of the part_001 revision: bounding box of the context's
placement list, all -1 when it is empty. -/
def getGridBounds (placements : List Placement) : Bounds :=
  if placements.length = 0 then ⟨-1, -1, -1, -1⟩
  else placements.foldl boundsStep ⟨-1, -1, -1, -1⟩

/-- `result.grid.flat().filter(c => c !== '').length` over the gs×gs grid. -/
def filledCount (gs : Nat) (g : Grid) : Nat :=
  ((List.range gs).map fun r =>
    ((List.range gs).filter fun c => (g r c).isSome).length).sum

/-- The density term the part_001 revision's `scoreCrosswordResult` adds:
filled-cell fraction of the bounding-box area, scaled by 50, or 0 when the
sentinel or a nonpositive area suppresses it. -/
def densityBonus (ctxPlacements : List Placement) (gs : Nat) (result : Result) : ℚ :=
  let b := getGridBounds ctxPlacements
  if b.minRow ≠ -1 then
    let area : Int := (b.maxRow - b.minRow + 1) * (b.maxCol - b.minCol + 1)
    if 0 < area then ((filledCount gs result.grid : ℚ) / (area : ℚ)) * 50 else 0
  else 0

/-- `scoreCrosswordResult` of the part_001 revision: 100 per placement
plus the density bonus (whose bounding box its `getGridBounds` takes from
the context's placements). -/
def scoreCrosswordResultDensity (ctxPlacements : List Placement) (gs : Nat)
    (result : Result) : ℚ :=
  (result.placements.length : ℚ) * 100 + densityBonus ctxPlacements gs result

/-- One recorded placement call of an attempt, as fed to
`placeWordForResult`. -/
structure Step where
  word : Word
  clue : String
  startRow : Nat
  startCol : Nat
  direction : Dir
deriving DecidableEq, Repr

/-- Perform one placement call on a result. -/
def applyStep (res : Result) (s : Step) : Result :=
  placeWordForResult res s.word s.clue s.startRow s.startCol s.direction

/-- Run a sequence of placement calls. -/
def runSteps (res : Result) : List Step → Result
  | [] => res
  | s :: rest => runSteps (applyStep res s) rest

/-- Every placement call of the sequence was immediately preceded by a
successful `canPlaceWord` check for the same word, start cell and
direction on the grid current at that point. -/
def LegalSteps (gs : Nat) (res : Result) : List Step → Prop
  | [] => True
  | s :: rest =>
      canPlaceWord gs res.grid s.word s.startRow s.startCol s.direction = true ∧
      LegalSteps gs (applyStep res s) rest

/-- Reading the grid back along a placement's direction from its start
cell reproduces the placement's word. -/
def ReadsBack (g : Grid) (p : Placement) : Prop :=
  ∀ i, i < p.word.length →
    g (cellRow p.startRow p.direction i) (cellCol p.startCol p.direction i) =
      some (cellChar p.word i)

/-- The claim-side legality predicate for `canPlaceWord`, phrased from the
specification: in-bounds along the direction; every covered cell either
already holds exactly the word's letter there, or is empty with both
perpendicular neighbours empty or out of bounds; and the cells just before
the start and just after the end are empty or out of bounds. -/
def SpecCanPlace (gs : Nat) (g : Grid) (w : Word) (sr sc : Nat) : Dir → Prop
  | .across =>
      sc + w.length ≤ gs ∧
      (∀ i, i < w.length →
        g sr (sc + i) = some (cellChar w i) ∨
        (g sr (sc + i) = none ∧
          (sr = 0 ∨ g (sr - 1) (sc + i) = none) ∧
          (gs ≤ sr + 1 ∨ g (sr + 1) (sc + i) = none))) ∧
      (sc = 0 ∨ g sr (sc - 1) = none) ∧
      (gs ≤ sc + w.length ∨ g sr (sc + w.length) = none)
  | .down =>
      sr + w.length ≤ gs ∧
      (∀ i, i < w.length →
        g (sr + i) sc = some (cellChar w i) ∨
        (g (sr + i) sc = none ∧
          (sc = 0 ∨ g (sr + i) (sc - 1) = none) ∧
          (gs ≤ sc + 1 ∨ g (sr + i) (sc + 1) = none))) ∧
      (sr = 0 ∨ g (sr - 1) sc = none) ∧
      (gs ≤ sr + w.length ∨ g (sr + w.length) sc = none)

/-- A placement that lies fully inside the gs×gs grid. -/
def InBoundsPlacement (gs : Nat) (p : Placement) : Prop :=
  match p.direction with
  | .across => p.startRow < gs ∧ p.startCol + p.word.length ≤ gs
  | .down => p.startCol < gs ∧ p.startRow + p.word.length ≤ gs

/-- Strict i-major, j-minor order on index pairs. -/
def PairLexLt (p q : Nat × Nat) : Prop :=
  p.1 < q.1 ∨ (p.1 = q.1 ∧ p.2 < q.2)

/-- A degenerate stand-in for the engine's `Math.sin`, used in concrete runs. -/
def sinF0 : ℚ → ℚ := fun _ => 0

/-- A concrete quiet environment: zero sine, zero random draws, zero clock. -/
def env0 : Env := ⟨sinF0, fun _ => 0, fun _ => 0⟩

/-- Concrete word list with the longer word first, for driver runs. -/
def wordsC : List WordEntry := [⟨"ABC".toList, ""⟩, ⟨"AB".toList, ""⟩]

/-- Concrete legal placement sequence: CAT across, then ACT down through
its A. -/
def demoSteps : List Step :=
  [⟨"CAT".toList, "", 3, 1, .across⟩, ⟨"ACT".toList, "", 3, 2, .down⟩]

/-- Concrete grid holding CAT across at row 3, columns 2-4. -/
def gCAT : Grid := writeWord emptyGrid ("CAT".toList) 3 2 .across

/-- The placement record for CAT on `gCAT`. -/
def epCAT : Placement := ⟨"CAT".toList, "", 3, 2, .across, 1⟩

/-- A concrete one-placement result, for scoring comparisons. -/
def resOne : Result := runSteps emptyResult [⟨"CAT".toList, "", 3, 1, .across⟩]

/-- A concrete two-placement result, for scoring comparisons. -/
def resTwo : Result := runSteps emptyResult demoSteps

end Crossword

namespace Crossword

theorem okCellAcross_iff (gs : Nat) (g : Grid) (w : Word) (row col0 i : Nat) :
    okCellAcross gs g w row col0 i = true ↔
      (g row (col0 + i) = some (cellChar w i) ∨
        (g row (col0 + i) = none ∧
          (row = 0 ∨ g (row - 1) (col0 + i) = none) ∧
          (gs ≤ row + 1 ∨ g (row + 1) (col0 + i) = none))) := by
  unfold okCellAcross
  cases h : g row (col0 + i) with
  | none =>
      simp only [Bool.and_eq_true, Bool.or_eq_true, decide_eq_true_eq,
        Option.isNone_iff_eq_none]
      constructor
      · rintro ⟨h1, h2⟩
        refine Or.inr ⟨by trivial, h1, ?_⟩
        rcases h2 with h2 | h2
        · exact Or.inl (by omega)
        · exact Or.inr h2
      · rintro (hc | ⟨-, h1, h2⟩)
        · exact absurd hc (by simp)
        · refine ⟨h1, ?_⟩
          rcases h2 with h2 | h2
          · exact Or.inl (by omega)
          · exact Or.inr h2
  | some ch =>
      simp only [decide_eq_true_eq, Option.some.injEq]
      constructor
      · intro hc
        exact Or.inl hc
      · rintro (hc | ⟨hc, -⟩)
        · exact hc
        · exact absurd hc (by simp)

theorem okCellDown_iff (gs : Nat) (g : Grid) (w : Word) (row0 col i : Nat) :
    okCellDown gs g w row0 col i = true ↔
      (g (row0 + i) col = some (cellChar w i) ∨
        (g (row0 + i) col = none ∧
          (col = 0 ∨ g (row0 + i) (col - 1) = none) ∧
          (gs ≤ col + 1 ∨ g (row0 + i) (col + 1) = none))) := by
  unfold okCellDown
  cases h : g (row0 + i) col with
  | none =>
      simp only [Bool.and_eq_true, Bool.or_eq_true, decide_eq_true_eq,
        Option.isNone_iff_eq_none]
      constructor
      · rintro ⟨h1, h2⟩
        refine Or.inr ⟨by trivial, h1, ?_⟩
        rcases h2 with h2 | h2
        · exact Or.inl (by omega)
        · exact Or.inr h2
      · rintro (hc | ⟨-, h1, h2⟩)
        · exact absurd hc (by simp)
        · refine ⟨h1, ?_⟩
          rcases h2 with h2 | h2
          · exact Or.inl (by omega)
          · exact Or.inr h2
  | some ch =>
      simp only [decide_eq_true_eq, Option.some.injEq]
      constructor
      · intro hc
        exact Or.inl hc
      · rintro (hc | ⟨hc, -⟩)
        · exact hc
        · exact absurd hc (by simp)

/-- C1: `canPlaceWord(word, startRow, startCol, direction)` returns true
if and only if the word fits in bounds along its direction, every covered
cell is occupied by exactly the word's letter or empty with both
perpendicular neighbours empty or out of bounds, and the cells just before
the start and just after the end are empty or out of bounds; it never
mutates the grid (it is a pure function of it). -/
theorem canPlaceWord_iff_spec (gs : Nat) (g : Grid) (w : Word) (sr sc : Nat) (d : Dir)
    (_h : (d = Dir.across → sr < gs) ∧ (d = Dir.down → sc < gs)) :
    canPlaceWord gs g w sr sc d = true ↔ SpecCanPlace gs g w sr sc d := by
  cases d with
  | across =>
      simp only [canPlaceWord, SpecCanPlace, Bool.and_eq_true, decide_eq_true_eq,
        List.all_eq_true, List.mem_range, Bool.or_eq_true, Option.isNone_iff_eq_none]
      constructor
      · rintro ⟨⟨⟨hfit, hcells⟩, hbefore⟩, hafter⟩
        refine ⟨hfit, fun i hi => (okCellAcross_iff gs g w sr sc i).1 (hcells i hi),
          hbefore, ?_⟩
        rcases hafter with h | h
        · left; omega
        · right; exact h
      · rintro ⟨hfit, hcells, hbefore, hafter⟩
        refine ⟨⟨⟨hfit, fun i hi => (okCellAcross_iff gs g w sr sc i).2 (hcells i hi)⟩,
          hbefore⟩, ?_⟩
        rcases hafter with h | h
        · left; omega
        · right; exact h
  | down =>
      simp only [canPlaceWord, SpecCanPlace, Bool.and_eq_true, decide_eq_true_eq,
        List.all_eq_true, List.mem_range, Bool.or_eq_true, Option.isNone_iff_eq_none]
      constructor
      · rintro ⟨⟨⟨hfit, hcells⟩, hbefore⟩, hafter⟩
        refine ⟨hfit, fun i hi => (okCellDown_iff gs g w sr sc i).1 (hcells i hi),
          hbefore, ?_⟩
        rcases hafter with h | h
        · left; omega
        · right; exact h
      · rintro ⟨hfit, hcells, hbefore, hafter⟩
        refine ⟨⟨⟨hfit, fun i hi => (okCellDown_iff gs g w sr sc i).2 (hcells i hi)⟩,
          hbefore⟩, ?_⟩
        rcases hafter with h | h
        · left; omega
        · right; exact h

/-- Witness for C1: placing CAT at row 3, column 1 across on the empty
7×7 grid is legal, both per the code and per the specification predicate. -/
theorem canPlaceWord_iff_spec_witness :
    SpecCanPlace 7 emptyGrid ("CAT".toList) 3 1 Dir.across :=
  (canPlaceWord_iff_spec 7 emptyGrid ("CAT".toList) 3 1 Dir.across
    (by constructor <;> intro <;> omega)).1 (by decide)

theorem mem_findIntersections {w1 w2 : Word} {i j : Nat} :
    (i, j) ∈ findIntersections w1 w2 ↔
      i < w1.length ∧ j < w2.length ∧ cellChar w1 i = cellChar w2 j := by
  simp only [findIntersections, List.mem_flatMap, List.mem_map, List.mem_filter,
    List.mem_range, decide_eq_true_eq, Prod.mk.injEq]
  constructor
  · rintro ⟨a, ha, b, ⟨hb, hab⟩, rfl, rfl⟩
    exact ⟨ha, hb, hab⟩
  · rintro ⟨hi, hj, hij⟩
    exact ⟨i, hi, j, ⟨hj, hij⟩, rfl, rfl⟩

/-- C4: `findIntersections(wordA, wordB)` returns exactly the pairs
`(i, j)` with equal letters, without duplicates, ordered by `i` ascending
and then `j` ascending; it is a pure function with no side effects. -/
theorem findIntersections_characterization (w1 w2 : Word) :
    (∀ i j, (i, j) ∈ findIntersections w1 w2 ↔
      (i < w1.length ∧ j < w2.length ∧ cellChar w1 i = cellChar w2 j)) ∧
    List.Pairwise PairLexLt (findIntersections w1 w2) ∧
    (findIntersections w1 w2).Nodup := by
  have hpair : List.Pairwise PairLexLt (findIntersections w1 w2) := by
    rw [findIntersections, List.flatMap_def, List.pairwise_flatten]
    constructor
    · intro l hl
      rw [List.mem_map] at hl
      obtain ⟨i, -, rfl⟩ := hl
      rw [List.pairwise_map]
      exact ((List.pairwise_lt_range w2.length).filter _).imp fun hab =>
        Or.inr ⟨rfl, hab⟩
    · rw [List.pairwise_map]
      refine (List.pairwise_lt_range w1.length).imp ?_
      intro a b hab x hx y hy
      rw [List.mem_map] at hx hy
      obtain ⟨jx, -, rfl⟩ := hx
      obtain ⟨jy, -, rfl⟩ := hy
      exact Or.inl hab
  refine ⟨fun i j => mem_findIntersections, hpair, ?_⟩
  refine hpair.imp ?_
  intro a b hab heq
  subst heq
  rcases hab with h | ⟨-, h⟩ <;> exact absurd h (lt_irrefl _)

/-- C5 counterexample: contrary to the spec's fixture,
`findIntersections("CAT","ACT")` is not `[(0,1),(1,0),(1,2),(2,0)]`. -/
theorem findIntersections_cat_act_fixture_false :
    findIntersections ("CAT".toList) ("ACT".toList) ≠ [(0, 1), (1, 0), (1, 2), (2, 0)] := by
  decide

theorem writeWord_across (g : Grid) (w : Word) (r c r' c' : Nat) :
    writeWord g w r c .across r' c' =
      if r' = r ∧ c ≤ c' ∧ c' < c + w.length then some (cellChar w (c' - c))
      else g r' c' := by
  induction w generalizing g c with
  | nil =>
      simp only [writeWord, List.length_nil]
      rw [if_neg (by omega)]
  | cons ch rest ih =>
      simp only [writeWord]
      rw [ih]
      simp only [updateGrid, List.length_cons, cellChar]
      split_ifs <;>
        first
          | rfl
          | (exfalso; omega)
          | (rw [show c' - c = (c' - (c + 1)) + 1 from by omega, List.getD_cons_succ])
          | (rw [show c' - c = 0 from by omega, List.getD_cons_zero])

theorem writeWord_down (g : Grid) (w : Word) (r c r' c' : Nat) :
    writeWord g w r c .down r' c' =
      if c' = c ∧ r ≤ r' ∧ r' < r + w.length then some (cellChar w (r' - r))
      else g r' c' := by
  induction w generalizing g r with
  | nil =>
      simp only [writeWord, List.length_nil]
      rw [if_neg (by omega)]
  | cons ch rest ih =>
      simp only [writeWord]
      rw [ih]
      simp only [updateGrid, List.length_cons, cellChar]
      split_ifs <;>
        first
          | rfl
          | (exfalso; omega)
          | (rw [show r' - r = (r' - (r + 1)) + 1 from by omega, List.getD_cons_succ])
          | (rw [show r' - r = 0 from by omega, List.getD_cons_zero])

theorem canPlace_no_conflict {gs : Nat} {g : Grid} {w : Word} {r c : Nat} {d : Dir}
    (hcan : canPlaceWord gs g w r c d = true) :
    ∀ i, i < w.length →
      g (cellRow r d i) (cellCol c d i) = none ∨
      g (cellRow r d i) (cellCol c d i) = some (cellChar w i) := by
  intro i hi
  cases d with
  | across =>
      simp only [canPlaceWord, Bool.and_eq_true, List.all_eq_true, List.mem_range] at hcan
      rcases (okCellAcross_iff gs g w r c i).1 (hcan.1.1.2 i hi) with hx | ⟨hx, -⟩
      · exact Or.inr hx
      · exact Or.inl hx
  | down =>
      simp only [canPlaceWord, Bool.and_eq_true, List.all_eq_true, List.mem_range] at hcan
      rcases (okCellDown_iff gs g w r c i).1 (hcan.1.1.2 i hi) with hx | ⟨hx, -⟩
      · exact Or.inr hx
      · exact Or.inl hx

theorem writeWord_keeps_some {gs : Nat} {g : Grid} {w : Word} {r c : Nat} {d : Dir}
    (hcan : canPlaceWord gs g w r c d = true)
    {r' c' : Nat} {x : Char} (hx : g r' c' = some x) :
    writeWord g w r c d r' c' = some x := by
  cases d with
  | across =>
      rw [writeWord_across]
      split_ifs with h
      · obtain ⟨rfl, hle, hlt⟩ := h
        have hno := canPlace_no_conflict hcan (c' - c) (by omega)
        simp only [cellRow, cellCol] at hno
        rw [show c + (c' - c) = c' from by omega] at hno
        rcases hno with hno | hno
        · rw [hno] at hx
          exact absurd hx (by simp)
        · rw [hno] at hx
          rw [← hx]
      · exact hx
  | down =>
      rw [writeWord_down]
      split_ifs with h
      · obtain ⟨rfl, hle, hlt⟩ := h
        have hno := canPlace_no_conflict hcan (r' - r) (by omega)
        simp only [cellRow, cellCol] at hno
        rw [show r + (r' - r) = r' from by omega] at hno
        rcases hno with hno | hno
        · rw [hno] at hx
          exact absurd hx (by simp)
        · rw [hno] at hx
          rw [← hx]
      · exact hx

theorem writeWord_readsBack (g : Grid) (w : Word) (r c : Nat) (d : Dir) :
    ∀ i, i < w.length →
      writeWord g w r c d (cellRow r d i) (cellCol c d i) = some (cellChar w i) := by
  intro i hi
  cases d with
  | across =>
      simp only [cellRow, cellCol]
      rw [writeWord_across, if_pos ⟨rfl, by omega, by omega⟩,
        show c + i - c = i from by omega]
  | down =>
      simp only [cellRow, cellCol]
      rw [writeWord_down, if_pos ⟨rfl, by omega, by omega⟩,
        show r + i - r = i from by omega]

theorem legal_decomp (gs : Nat) :
    ∀ (pre : List Step) (res : Result) (steps : List Step) (s : Step) (post : List Step),
      LegalSteps gs res steps → steps = pre ++ s :: post →
      canPlaceWord gs (runSteps res pre).grid s.word s.startRow s.startCol s.direction = true := by
  intro pre
  induction pre with
  | nil =>
      rintro res steps s post hl rfl
      exact hl.1
  | cons q pre ih =>
      rintro res steps s post hl rfl
      exact ih (applyStep res q) _ s post hl.2 rfl

theorem invariant_run (gs : Nat) :
    ∀ (steps : List Step) (res : Result),
      LegalSteps gs res steps → (∀ p ∈ res.placements, ReadsBack res.grid p) →
      ∀ p ∈ (runSteps res steps).placements, ReadsBack (runSteps res steps).grid p := by
  intro steps
  induction steps with
  | nil =>
      intro res _ hinv
      exact hinv
  | cons s rest ih =>
      intro res hl hinv
      refine ih (applyStep res s) hl.2 ?_
      intro p hp
      simp only [applyStep, placeWordForResult] at hp
      rcases List.mem_append.1 hp with hp | hp
      · intro i hi
        exact writeWord_keeps_some hl.1 (hinv p hp i hi)
      · have hpe : p = ⟨s.word, s.clue, s.startRow, s.startCol, s.direction, res.currentNumber⟩ := by
          simpa using hp
        subst hpe
        intro i hi
        exact writeWord_readsBack res.grid s.word s.startRow s.startCol s.direction i hi

/-- C2: for every placement sequence in which each `placeWordForResult`
call was preceded by a successful `canPlaceWord` check on the current
grid, reading the final grid back along each placement reproduces its word
exactly, and no call ever overwrites an occupied cell with a different
letter. -/
theorem placement_sequence_consistent (gs : Nat) (steps : List Step)
    (h : LegalSteps gs emptyResult steps) :
    (∀ p ∈ (runSteps emptyResult steps).placements,
      ReadsBack (runSteps emptyResult steps).grid p) ∧
    (∀ pre s post, steps = pre ++ s :: post →
      ∀ i, i < s.word.length →
        (runSteps emptyResult pre).grid (cellRow s.startRow s.direction i)
            (cellCol s.startCol s.direction i) = none ∨
        (runSteps emptyResult pre).grid (cellRow s.startRow s.direction i)
            (cellCol s.startCol s.direction i) = some (cellChar s.word i)) := by
  constructor
  · refine invariant_run gs steps emptyResult h ?_
    intro p hp
    simp [emptyResult] at hp
  · intro pre s post heq i hi
    exact canPlace_no_conflict (legal_decomp gs pre emptyResult steps s post h heq) i hi

/-- Witness for C2: a concrete two-step legal sequence (CAT across, ACT
down through the shared A) whose final grid reads every placement back. -/
theorem placement_sequence_consistent_witness :
    LegalSteps 7 emptyResult demoSteps ∧
    ∀ p ∈ (runSteps emptyResult demoSteps).placements,
      ReadsBack (runSteps emptyResult demoSteps).grid p := by
  have h : LegalSteps 7 emptyResult demoSteps := ⟨by decide, by decide, trivial⟩
  exact ⟨h, (placement_sequence_consistent 7 demoSteps h).1⟩

/-- C3: a triple is returned by `getIntersectionPlacements` exactly when
its direction is perpendicular to the existing placement, some equal-letter
index pair aligns the two words on a shared cell, the new word lies within
bounds for its full length, and `canPlaceWord` accepts it. -/
theorem getIntersectionPlacements_mem_iff (gs : Nat) (g : Grid) (w : Word) (ep : Placement)
    (_hep : InBoundsPlacement gs ep) (r c : Nat) (d : Dir) :
    (r, c, d) ∈ getIntersectionPlacements gs g w ep ↔
      (d = ep.direction.opposite ∧
        ∃ i j, i < w.length ∧ j < ep.word.length ∧
          cellChar w i = cellChar ep.word j ∧
          cellRow r d i = cellRow ep.startRow ep.direction j ∧
          cellCol c d i = cellCol ep.startCol ep.direction j ∧
          (match d with
            | .across => c + w.length ≤ gs
            | .down => r + w.length ≤ gs) ∧
          canPlaceWord gs g w r c d = true) := by
  unfold getIntersectionPlacements
  rw [List.mem_filterMap]
  cases hd : ep.direction with
  | across =>
      constructor
      · rintro ⟨⟨i, j⟩, hmem, hf⟩
        rw [mem_findIntersections] at hmem
        dsimp only at hf
        split_ifs at hf with h1 h2
        rw [Bool.and_eq_true, decide_eq_true_eq] at h2
        rw [Option.some.injEq, Prod.mk.injEq, Prod.mk.injEq] at hf
        obtain ⟨hf1, hf2, hf3⟩ := hf
        subst hf1
        subst hf2
        subst hf3
        refine ⟨rfl, i, j, hmem.1, hmem.2.1, hmem.2.2, ?_, ?_, ?_, h2.2⟩
        · simp only [cellRow, hd]
          omega
        · simp only [cellCol, hd]
        · exact h2.1
      · rintro ⟨hdq, i, j, hi, hj, hchar, hrow, hcol, hbound, hcan⟩
        have hdd : d = Dir.down := by simpa [Dir.opposite] using hdq
        subst hdd
        simp only [cellRow, cellCol, hd] at hrow hcol
        refine ⟨(i, j), mem_findIntersections.2 ⟨hi, hj, hchar⟩, ?_⟩
        dsimp only
        rw [if_pos (by omega : i ≤ ep.startRow)]
        rw [show ep.startRow - i = r from by omega, show ep.startCol + j = c from hcol.symm]
        rw [if_pos (by rw [Bool.and_eq_true, decide_eq_true_eq]; exact ⟨hbound, hcan⟩)]
  | down =>
      constructor
      · rintro ⟨⟨i, j⟩, hmem, hf⟩
        rw [mem_findIntersections] at hmem
        dsimp only at hf
        split_ifs at hf with h1 h2
        rw [Bool.and_eq_true, decide_eq_true_eq] at h2
        rw [Option.some.injEq, Prod.mk.injEq, Prod.mk.injEq] at hf
        obtain ⟨hf1, hf2, hf3⟩ := hf
        subst hf1
        subst hf2
        subst hf3
        refine ⟨rfl, i, j, hmem.1, hmem.2.1, hmem.2.2, ?_, ?_, ?_, h2.2⟩
        · simp only [cellRow, hd]
        · simp only [cellCol, hd]
          omega
        · exact h2.1
      · rintro ⟨hdq, i, j, hi, hj, hchar, hrow, hcol, hbound, hcan⟩
        have hdd : d = Dir.across := by simpa [Dir.opposite] using hdq
        subst hdd
        simp only [cellRow, cellCol, hd] at hrow hcol
        refine ⟨(i, j), mem_findIntersections.2 ⟨hi, hj, hchar⟩, ?_⟩
        dsimp only
        rw [if_pos (by omega : i ≤ ep.startCol)]
        rw [show ep.startCol - i = c from by omega, show ep.startRow + j = r from hrow.symm]
        rw [if_pos (by rw [Bool.and_eq_true, decide_eq_true_eq]; exact ⟨hbound, hcan⟩)]

/-- Witness for C3: on a 10×10 grid holding CAT across at (3,2), TIGER
can be returned down at (3,4) through the shared T. -/
theorem getIntersectionPlacements_mem_iff_witness :
    (3, 4, Dir.down) ∈ getIntersectionPlacements 10 gCAT ("TIGER".toList) epCAT :=
  (getIntersectionPlacements_mem_iff 10 gCAT ("TIGER".toList) epCAT
      (by exact ⟨by decide, by decide⟩) 3 4 Dir.down).2
    (by
      refine ⟨by decide, 0, 2, ?_, ?_, ?_, ?_, ?_, ?_, ?_⟩ <;> decide)

/-- C5 (amended): `findIntersections("CAT","DOG")` is empty,
`findIntersections("CAT","TIGER")` contains `(2,0)`, and
`findIntersections("CAT","ACT")` is exactly `[(0,1),(1,0),(2,2)]`. -/
theorem findIntersections_fixtures :
    findIntersections ("CAT".toList) ("DOG".toList) = [] ∧
    (2, 0) ∈ findIntersections ("CAT".toList) ("TIGER".toList) ∧
    findIntersections ("CAT".toList) ("ACT".toList) = [(0, 1), (1, 0), (2, 2)] := by
  decide

theorem driverLoop_attempts_le (env : Env) (gs : Nat) (words : List WordEntry)
    (mode : Mode) (totalAttempts timeoutMs : Nat) :
    ∀ (seeds : List Seed) (best : Option Result) (score attempts : Nat) (perfect : Bool),
      (driverLoop env gs words mode totalAttempts timeoutMs seeds best score attempts
          perfect).attempts ≤ attempts + seeds.length := by
  intro seeds
  induction seeds with
  | nil =>
      intro best score attempts perfect
      simp [driverLoop]
  | cons seed rest ih =>
      intro best score attempts perfect
      simp only [driverLoop, List.length_cons]
      split_ifs
      · show attempts ≤ attempts + (rest.length + 1)
        omega
      · show attempts + 1 ≤ attempts + (rest.length + 1)
        omega
      · exact (ih _ _ _ _).trans (by omega)
      · exact (ih _ _ _ _).trans (by omega)
      · show attempts ≤ attempts + (rest.length + 1)
        omega

/-- C10: `generateSeedCombinations` always yields 4 word orderings × 2
starting positions = 8 seeds in maxOverlap mode and exactly 1000 seeds in
random mode, so an enforced maxOverlap search runs at most 8 attempts no
matter how large `maxAttempts` and `timeoutSeconds` are. -/
theorem seed_combinations_count (env : Env) (gs : Nat) (words : List WordEntry) :
    (generateWordOrderVariations words).length = 4 ∧
    (generateStartingPositionVariations gs).length = 2 ∧
    (generateSeedCombinations env gs words .maxOverlap).length = 8 ∧
    (generateSeedCombinations env gs words .random).length = 1000 ∧
    (∀ (enforce : Bool) (maxAttempts timeoutSeconds : Nat),
      (generateCrosswordWithSystematicAttempts env gs words .maxOverlap enforce
          maxAttempts timeoutSeconds).attempts ≤ 8) := by
  have h8 : (generateSeedCombinations env gs words .maxOverlap).length = 8 := by
    simp [generateSeedCombinations, generateWordOrderVariations,
      generateStartingPositionVariations]
  refine ⟨by simp [generateWordOrderVariations],
    by simp [generateStartingPositionVariations], h8,
    by simp [generateSeedCombinations], ?_⟩
  intro enforce maxAttempts timeoutSeconds
  have := driverLoop_attempts_le env gs words .maxOverlap
    (if enforce then maxAttempts else 1) (timeoutSeconds * 1000)
    (generateSeedCombinations env gs words .maxOverlap) none 0 0 false
  rw [h8] at this
  exact this.trans (by omega)

theorem densityBonus_nonneg (ctx : List Placement) (gs : Nat) (res : Result) :
    0 ≤ densityBonus ctx gs res := by
  simp only [densityBonus]
  split_ifs with h1 h2
  · apply mul_nonneg _ (by norm_num)
    apply div_nonneg (Nat.cast_nonneg _)
    exact_mod_cast (le_of_lt h2)
  · exact le_refl 0
  · exact le_refl 0

/-- C8: scoring is strictly monotone in the number of placements: the
src/generator.js score (100 per placement, no bonus) unconditionally, and
the part_001 density revision whenever its bonus stays below the value of
one additional placed word. -/
theorem score_strict_monotone :
    (∀ r1 r2 : Result, r2.placements.length < r1.placements.length →
      scoreCrosswordResult r2 < scoreCrosswordResult r1) ∧
    (∀ (ctx : List Placement) (gs : Nat) (r1 r2 : Result),
      r2.placements.length < r1.placements.length →
      densityBonus ctx gs r2 < 100 →
      scoreCrosswordResultDensity ctx gs r2 < scoreCrosswordResultDensity ctx gs r1) := by
  constructor
  · intro r1 r2 h
    unfold scoreCrosswordResult
    omega
  · intro ctx gs r1 r2 h hb
    unfold scoreCrosswordResultDensity
    have h1 : (r2.placements.length : ℚ) + 1 ≤ (r1.placements.length : ℚ) := by
      exact_mod_cast h
    have h2 := densityBonus_nonneg ctx gs r1
    linarith

/-- Witness for C8: a two-placement result strictly outscores a
one-placement result under both scoring revisions. -/
theorem score_strict_monotone_witness :
    scoreCrosswordResult resOne < scoreCrosswordResult resTwo ∧
    scoreCrosswordResultDensity [] 10 resOne < scoreCrosswordResultDensity [] 10 resTwo :=
  ⟨score_strict_monotone.1 resTwo resOne (by decide),
    score_strict_monotone.2 [] 10 resTwo resOne (by decide)
      (by norm_num [densityBonus, getGridBounds])⟩

theorem cons_set_perm {α : Type} :
    ∀ (l : List α) (j : Nat) (a b : α),
      l.get? j = some b → (b :: l.set j a).Perm (a :: l) := by
  intro l
  induction l with
  | nil =>
      intro j a b h
      simp at h
  | cons c rest ih =>
      intro j a b h
      cases j with
      | zero =>
          rw [List.get?_cons_zero, Option.some.injEq] at h
          subst h
          exact List.Perm.swap a c rest
      | succ m =>
          rw [List.get?_cons_succ] at h
          have hih := ih m a b h
          show (b :: c :: rest.set m a).Perm (a :: c :: rest)
          exact (List.Perm.swap c b _).trans ((hih.cons c).trans (List.Perm.swap a c rest))

theorem swapList_length {α : Type} (l : List α) (i j : Nat) :
    (swapList l i j).length = l.length := by
  unfold swapList
  cases l.get? i <;> cases l.get? j <;> simp

theorem swapList_perm {α : Type} :
    ∀ (l : List α) (i j : Nat), i < l.length → j < l.length → (swapList l i j).Perm l := by
  intro l
  induction l with
  | nil =>
      intro i j hi hj
      simp at hi
  | cons x xs ih =>
      intro i j hi hj
      simp only [List.length_cons] at hi hj
      cases i with
      | zero =>
          cases j with
          | zero =>
              show ((List.set (x :: xs) 0 x).set 0 x).Perm (x :: xs)
              exact List.Perm.refl _
          | succ m =>
              cases hx : xs.get? m with
              | none =>
                  rw [List.get?_eq_none] at hx
                  omega
              | some b =>
                  unfold swapList
                  rw [List.get?_cons_zero, List.get?_cons_succ, hx]
                  show (b :: xs.set m x).Perm (x :: xs)
                  exact cons_set_perm xs m x b hx
      | succ n =>
          cases j with
          | zero =>
              cases hx : xs.get? n with
              | none =>
                  rw [List.get?_eq_none] at hx
                  omega
              | some a =>
                  unfold swapList
                  rw [List.get?_cons_zero, List.get?_cons_succ, hx]
                  show (a :: xs.set n x).Perm (x :: xs)
                  exact cons_set_perm xs n x a hx
          | succ m =>
              cases hx : xs.get? n with
              | none =>
                  rw [List.get?_eq_none] at hx
                  omega
              | some a =>
                  cases hy : xs.get? m with
                  | none =>
                      rw [List.get?_eq_none] at hy
                      omega
                  | some b =>
                      have hxy : swapList (x :: xs) (n + 1) (m + 1) = x :: swapList xs n m := by
                        unfold swapList
                        rw [List.get?_cons_succ, List.get?_cons_succ, hx, hy]
                        rfl
                      rw [hxy]
                      exact (ih n m (by omega) (by omega)).cons x

theorem floorIndex_le (n : Nat) (q : ℚ) (_h0 : 0 ≤ q) (h1 : q < 1) :
    (⌊q * (n + 1 : ℚ)⌋).toNat ≤ n := by
  have hpos : (0 : ℚ) < (n + 1 : ℚ) := by positivity
  have hlt : q * (n + 1 : ℚ) < (n + 1 : ℚ) := by nlinarith
  have hfl : ⌊q * (n + 1 : ℚ)⌋ < ((n : Int) + 1) := by
    apply Int.floor_lt.2
    push_cast
    exact hlt
  omega

theorem mkRand_mem_Ico (sinF : ℚ → ℚ) (seed : ℚ) (k : Nat) :
    0 ≤ mkRand sinF seed k ∧ mkRand sinF seed k < 1 := by
  have h1 := Int.fract_nonneg (sinF (seed + k) * 10000)
  have h2 := Int.fract_lt_one (sinF (seed + k) * 10000)
  rw [Int.fract] at h1 h2
  exact ⟨h1, h2⟩

theorem shuffleAux_length {α : Type} (rand : Nat → ℚ) :
    ∀ (ci k : Nat) (l : List α), (shuffleAux rand ci k l).length = l.length := by
  intro ci
  induction ci with
  | zero =>
      intro k l
      rfl
  | succ n ih =>
      intro k l
      exact (ih (k + 1) (swapList l n (⌊rand k * (n + 1 : ℚ)⌋).toNat)).trans
        (swapList_length l n _)

theorem shuffleAux_perm {α : Type} (rand : Nat → ℚ)
    (hr : ∀ m, 0 ≤ rand m ∧ rand m < 1) :
    ∀ (ci k : Nat) (l : List α), ci ≤ l.length → (shuffleAux rand ci k l).Perm l := by
  intro ci
  induction ci with
  | zero =>
      intro k l _
      exact List.Perm.refl l
  | succ n ih =>
      intro k l h
      have hidx : (⌊rand k * (n + 1 : ℚ)⌋).toNat ≤ n :=
        floorIndex_le n (rand k) (hr k).1 (hr k).2
      have hswap : (swapList l n (⌊rand k * (n + 1 : ℚ)⌋).toNat).Perm l :=
        swapList_perm l n _ (by omega) (by omega)
      have hlen := swapList_length l n (⌊rand k * (n + 1 : ℚ)⌋).toNat
      exact (ih (k + 1) _ (by omega)).trans hswap

theorem deterministicShuffle_perm {α : Type} (sinF : ℚ → ℚ) (l : List α) (seed : ℚ) :
    (deterministicShuffle sinF l seed).Perm l :=
  shuffleAux_perm (mkRand sinF seed) (mkRand_mem_Ico sinF seed) l.length 0 l (le_refl _)

/-- C7: the seeded generation pipeline is deterministic: equal arrays and
equal numeric seeds give the identical shuffled permutation (and the
shuffle output is a permutation of its input), and
`generateSingleCrosswordWithSeed` is a pure function of the word list,
mode and seed — two runs on equal inputs produce identical results. -/
theorem generation_deterministic :
    (∀ (sinF : ℚ → ℚ) (seed1 seed2 : ℚ) (l1 l2 : List WordEntry),
      seed1 = seed2 → l1 = l2 →
      deterministicShuffle sinF l1 seed1 = deterministicShuffle sinF l2 seed2 ∧
      (deterministicShuffle sinF l1 seed1).Perm l1) ∧
    (∀ (sinF : ℚ → ℚ) (gs : Nat) (words1 words2 : List WordEntry) (mode : Mode)
        (seed1 seed2 : Seed),
      words1 = words2 → seed1 = seed2 →
      generateSingleCrosswordWithSeed sinF gs words1 mode seed1 =
        generateSingleCrosswordWithSeed sinF gs words2 mode seed2) := by
  constructor
  · rintro sinF seed1 seed2 l1 l2 rfl rfl
    exact ⟨rfl, deterministicShuffle_perm sinF l1 seed1⟩
  · rintro sinF gs words1 words2 mode seed1 seed2 rfl rfl
    rfl

/-- Witness for C7: a concrete double run on equal inputs, with the
shuffle output a permutation of the input list. -/
theorem generation_deterministic_witness :
    (deterministicShuffle sinF0 wordsC 0 = deterministicShuffle sinF0 wordsC 0 ∧
      (deterministicShuffle sinF0 wordsC 0).Perm wordsC) ∧
    generateSingleCrosswordWithSeed sinF0 10 wordsC .maxOverlap ⟨none, none, none, none⟩ =
      generateSingleCrosswordWithSeed sinF0 10 wordsC .maxOverlap ⟨none, none, none, none⟩ :=
  ⟨generation_deterministic.1 sinF0 0 0 wordsC wordsC rfl rfl,
    generation_deterministic.2 sinF0 10 wordsC wordsC .maxOverlap
      ⟨none, none, none, none⟩ ⟨none, none, none, none⟩ rfl rfl⟩

theorem insertStable_length {α : Type} (lt : α → α → Bool) (x : α) :
    ∀ l : List α, (insertStable lt x l).length = l.length + 1 := by
  intro l
  induction l with
  | nil => rfl
  | cons y ys ih =>
      simp only [insertStable]
      split_ifs
      · simp only [List.length_cons, ih]
      · simp only [List.length_cons]

theorem sortStable_length {α : Type} (lt : α → α → Bool) :
    ∀ l : List α, (sortStable lt l).length = l.length := by
  intro l
  induction l with
  | nil => rfl
  | cons x xs ih =>
      simp only [sortStable]
      rw [insertStable_length, ih, List.length_cons]

theorem placementPass_extend (gs : Nat) (mode : Mode) :
    ∀ (ws : List WordEntry) (res : Result),
      ∃ l, (placementPass gs mode res ws).1.placements = res.placements ++ l := by
  intro ws
  induction ws with
  | nil =>
      intro res
      exact ⟨[], by simp [placementPass]⟩
  | cons w rest ih =>
      intro res
      simp only [placementPass]
      split_ifs with hmem
      · exact ih res
      · cases hfind : findBestPlacement gs mode res.grid w.word res.placements with
        | some rcd =>
            obtain ⟨r, c, d⟩ := rcd
            dsimp only
            obtain ⟨l, hl⟩ := ih (placeWordForResult res w.word w.clue r c d)
            refine ⟨⟨w.word, w.clue, r, c, d, res.currentNumber⟩ :: l, ?_⟩
            rw [hl]
            simp [placeWordForResult]
        | none =>
            dsimp only
            exact ih res

theorem placementLoop_extend (gs : Nat) (mode : Mode) :
    ∀ (fuel : Nat) (res : Result) (ws : List WordEntry),
      ∃ l, (placementLoop gs mode fuel res ws).placements = res.placements ++ l := by
  intro fuel
  induction fuel with
  | zero =>
      intro res ws
      exact ⟨[], by simp [placementLoop]⟩
  | succ n ih =>
      intro res ws
      cases ws with
      | nil => exact ⟨[], by simp [placementLoop]⟩
      | cons w rest =>
          simp only [placementLoop]
          obtain ⟨l1, hl1⟩ := placementPass_extend gs mode (w :: rest) res
          split_ifs with hflag
          · obtain ⟨l2, hl2⟩ := ih (placementPass gs mode res (w :: rest)).1
              (placementPass gs mode res (w :: rest)).2.1
            exact ⟨l1 ++ l2, by rw [hl2, hl1, List.append_assoc]⟩
          · exact ⟨l1, hl1⟩

theorem genSingle_placements_ne (sinF : ℚ → ℚ) (gs : Nat) (words : List WordEntry)
    (mode : Mode) (seed : Seed)
    (hne : (match seed.wordOrder with | some wo => wo | none => words) ≠ []) :
    (generateSingleCrosswordWithSeed sinF gs words mode seed).placements ≠ [] := by
  unfold generateSingleCrosswordWithSeed
  dsimp only
  cases mode with
  | maxOverlap =>
      cases hbase : (match seed.wordOrder with | some wo => wo | none => words) with
      | nil => exact absurd hbase hne
      | cons f rest =>
          dsimp only
          obtain ⟨l, hl⟩ := placementLoop_extend gs .maxOverlap rest.length
            (placeWordForResult emptyResult f.word f.clue
              (seed.startingPosition.getD (gs / 2, gs / 2)).1
              (seed.startingPosition.getD (gs / 2, gs / 2)).2 .across) rest
          rw [hl]
          simp [placeWordForResult, emptyResult]
  | random =>
      have hlen : (deterministicShuffle sinF
          (match seed.wordOrder with | some wo => wo | none => words)
          (seed.wordOrderSeed.getD 0)).length =
          (match seed.wordOrder with | some wo => wo | none => words).length :=
        shuffleAux_length _ _ _ _
      cases hsh : deterministicShuffle sinF
          (match seed.wordOrder with | some wo => wo | none => words)
          (seed.wordOrderSeed.getD 0) with
      | nil =>
          rw [hsh] at hlen
          exact absurd (List.length_eq_zero.1 hlen.symm) hne
      | cons f rest =>
          dsimp only
          obtain ⟨l, hl⟩ := placementLoop_extend gs .random rest.length
            (placeWordForResult emptyResult f.word f.clue
              (seed.startingPosition.getD (gs / 2, gs / 2)).1
              (seed.startingPosition.getD (gs / 2, gs / 2)).2 .across) rest
          rw [hl]
          simp [placeWordForResult, emptyResult]

theorem driverLoop_stop (env : Env) (gs : Nat) (words : List WordEntry) (mode : Mode)
    (totalAttempts timeoutMs : Nat) (seeds : List Seed) (best : Option Result)
    (score attempts : Nat) (perfect : Bool) (h : totalAttempts ≤ attempts) :
    driverLoop env gs words mode totalAttempts timeoutMs seeds best score attempts perfect =
      ⟨best, attempts, perfect⟩ := by
  cases seeds with
  | nil => rfl
  | cons s rest =>
      simp only [driverLoop]
      rw [if_neg (by omega)]

theorem driverLoop_single (env : Env) (gs : Nat) (words : List WordEntry) (mode : Mode)
    (timeoutMs : Nat) (seed : Seed) (rest : List Seed)
    (hT : env.elapsed 0 ≤ timeoutMs)
    (hNE : (generateSingleCrosswordWithSeed env.sinF gs words mode seed).placements ≠ []) :
    (driverLoop env gs words mode 1 timeoutMs (seed :: rest) none 0 0 false).attempts = 1 ∧
    (driverLoop env gs words mode 1 timeoutMs (seed :: rest) none 0 0 false).bestResult =
      some (generateSingleCrosswordWithSeed env.sinF gs words mode seed) := by
  simp only [driverLoop]
  rw [if_pos (by omega : (0 : Nat) < 1), if_neg (by omega : ¬ timeoutMs < env.elapsed 0)]
  by_cases hp : (generateSingleCrosswordWithSeed env.sinF gs words mode seed).placedWords.length
      = words.length
  · rw [if_pos hp]
    exact ⟨rfl, rfl⟩
  · rw [if_neg hp, if_pos ?hscore]
    case hscore =>
      have hlp := List.length_pos.2 hNE
      unfold scoreCrosswordResult
      omega
    rw [driverLoop_stop env gs words mode 1 timeoutMs rest _ _ 1 false (by omega)]
    exact ⟨rfl, rfl⟩

set_option maxRecDepth 8000 in
theorem seeds_cons (env : Env) (gs : Nat) (words : List WordEntry) (mode : Mode) :
    generateSeedCombinations env gs words mode =
      firstSeed env gs words mode ::
        (generateSeedCombinations env gs words mode).tail := by
  cases mode with
  | maxOverlap => rfl
  | random => rfl

theorem driver_first_seed_result (env : Env) (gs : Nat) (words : List WordEntry)
    (mode : Mode) (maxAttempts timeoutSeconds : Nat)
    (hW : words ≠ []) (_hA : 1 ≤ maxAttempts)
    (hT : env.elapsed 0 ≤ timeoutSeconds * 1000) :
    (generateCrosswordWithSystematicAttempts env gs words mode false maxAttempts
        timeoutSeconds).attempts = 1 ∧
    (generateCrosswordWithSystematicAttempts env gs words mode false maxAttempts
        timeoutSeconds).bestResult =
      some (generateSingleCrosswordWithSeed env.sinF gs words mode
        (firstSeed env gs words mode)) := by
  have ht := seeds_cons env gs words mode
  have hNE : (generateSingleCrosswordWithSeed env.sinF gs words mode
      (firstSeed env gs words mode)).placements ≠ [] := by
    apply genSingle_placements_ne
    cases mode with
    | maxOverlap =>
        dsimp only [firstSeed]
        intro hc
        have hlen := sortStable_length (fun a b => decide (b.word.length < a.word.length)) words
        rw [hc] at hlen
        exact hW (List.length_eq_zero.1 hlen.symm)
    | random =>
        dsimp only [firstSeed]
        exact hW
  unfold generateCrosswordWithSystematicAttempts
  rw [ht, show (if false then maxAttempts else 1) = 1 from rfl]
  exact driverLoop_single env gs words mode (timeoutSeconds * 1000)
    (firstSeed env gs words mode) _ hT hNE

/-- C6 (amended): whenever `enforceAllWords` is false (the word list being
nonempty and the clock not already past the timeout), the driver runs
exactly one attempt for every `maxAttempts` ≥ 1 and every mode, and
returns that attempt's result as best regardless of completeness; the
attempt consumes the first generated seed — the longest-first ordering
with the grid-center start in maxOverlap mode, but the first pair of
`Math.random` draws (hence a shuffled order, not longest-first) with the
default center start in random mode. -/
theorem driver_single_attempt (env : Env) (gs : Nat) (words : List WordEntry)
    (mode : Mode) (maxAttempts timeoutSeconds : Nat)
    (hW : words ≠ []) (hA : 1 ≤ maxAttempts)
    (hT : env.elapsed 0 ≤ timeoutSeconds * 1000) :
    (generateCrosswordWithSystematicAttempts env gs words mode false maxAttempts
        timeoutSeconds).attempts = 1 ∧
    (generateCrosswordWithSystematicAttempts env gs words mode false maxAttempts
        timeoutSeconds).bestResult =
      some (generateSingleCrosswordWithSeed env.sinF gs words mode
        (firstSeed env gs words mode)) :=
  driver_first_seed_result env gs words mode maxAttempts timeoutSeconds hW hA hT

/-- Witness for C6: a concrete maxOverlap run with `enforceAllWords`
false performs exactly one attempt and returns the first seed's result. -/
theorem driver_single_attempt_witness :
    (generateCrosswordWithSystematicAttempts env0 10 wordsC .maxOverlap false 5
        10).attempts = 1 ∧
    (generateCrosswordWithSystematicAttempts env0 10 wordsC .maxOverlap false 5
        10).bestResult =
      some (generateSingleCrosswordWithSeed env0.sinF 10 wordsC .maxOverlap
        (firstSeed env0 10 wordsC .maxOverlap)) :=
  driver_single_attempt env0 10 wordsC .maxOverlap 5 10 (by decide) (by decide) (by decide)

/-- C6 counterexample: with `enforceAllWords` false in random mode the
single attempt does not use the longest-first ordering: on the word list
[ABC, AB] with zero sine and zero random draws, the attempt's first placed
word is AB, while the longest-first ordering begins with ABC. -/
theorem driver_random_not_longest_first :
    ((generateCrosswordWithSystematicAttempts env0 10 wordsC .random false 5
        10).bestResult.map fun r => r.placements.head?.map Placement.word) =
      some (some ("AB".toList)) ∧
    ((generateWordOrderVariations wordsC).head?.map fun l =>
      l.head?.map WordEntry.word) = some (some ("ABC".toList)) ∧
    "AB".toList ≠ "ABC".toList := by
  refine ⟨?_, by decide, by decide⟩
  have hd := driver_first_seed_result env0 10 wordsC .random 5 10 (by decide) (by decide)
    (by decide)
  rw [hd.2]
  have hzero : ∀ k : Nat, mkRand sinF0 0 k = 0 := by
    intro k
    simp [mkRand, sinF0]
  have hidx : ∀ k n : Nat, (⌊mkRand sinF0 0 k * ((n : ℚ) + 1)⌋).toNat = 0 := by
    intro k n
    rw [hzero k]
    simp
  have hsh : deterministicShuffle sinF0 wordsC 0 = [⟨"AB".toList, ""⟩, ⟨"ABC".toList, ""⟩] := by
    calc deterministicShuffle sinF0 wordsC 0
        = shuffleAux (mkRand sinF0 0) 1 1
            (swapList wordsC 1 (⌊mkRand sinF0 0 0 * (((1 : Nat) : ℚ) + 1)⌋).toNat) := rfl
      _ = shuffleAux (mkRand sinF0 0) 1 1 (swapList wordsC 1 0) := by rw [hidx 0 1]
      _ = shuffleAux (mkRand sinF0 0) 0 2
            (swapList (swapList wordsC 1 0) 0
              (⌊mkRand sinF0 0 1 * (((0 : Nat) : ℚ) + 1)⌋).toNat) := rfl
      _ = shuffleAux (mkRand sinF0 0) 0 2 (swapList (swapList wordsC 1 0) 0 0) := by
            rw [hidx 1 0]
      _ = [⟨"AB".toList, ""⟩, ⟨"ABC".toList, ""⟩] := by decide
  have hR : generateSingleCrosswordWithSeed env0.sinF 10 wordsC .random
      (firstSeed env0 10 wordsC .random) =
      generateSingleCrosswordWithSeed sinF0 10 wordsC .random
        ⟨none, none, some 0, some 0⟩ := rfl
  rw [hR]
  have hfirst : (generateSingleCrosswordWithSeed sinF0 10 wordsC .random
      ⟨none, none, some 0, some 0⟩).placements.head?.map Placement.word =
      some ("AB".toList) := by
    unfold generateSingleCrosswordWithSeed
    dsimp only [Option.getD]
    rw [hsh]
    decide
  simp only [Option.map_some']
  rw [hfirst]

/-- C9: the first word of an attempt is written with no bounds check:
on a 10×10 grid, the 8-letter first word placed at the center (5,5) going
across writes its last letter at column 12, outside the grid — a write
`canPlaceWord` itself would have rejected. -/
theorem first_word_out_of_bounds_write :
    canPlaceWord 10 emptyGrid ("ABCDEFGH".toList) 5 5 .across = false ∧
    (generateSingleCrosswordWithSeed sinF0 10 [⟨"ABCDEFGH".toList, ""⟩] .maxOverlap
        ⟨none, none, none, none⟩).grid 5 12 = some 'H' ∧
    10 ≤ 12 := by
  refine ⟨by decide, by decide, by omega⟩

end Crossword
